import Mathlib

/-!
Verification of the EPUB parsing service in src/index.js (the final draft of
the repository: the POST /parse-epub handler).  JavaScript strings are
modelled as `List Char`; the chapter extraction (filter, per-section map,
markup stripping, preview truncation), the metadata defaulting via `||`, and
the success/failure response construction are translated below,
definition by definition, from the handler body.
-/

namespace EpubParse

/-- Scan for the closing `>` of the regular expression `<[^>]+>` after at
least one character of `[^>]+` has been consumed: consume characters up to
and including the first `>`, returning the suffix after it, or `none` when no
`>` occurs.  Since `[^>]` cannot match `>`, the greedy scan stops exactly at
the first `>`. -/
def goTag : List Char → Option (List Char)
  | [] => none
  | c :: cs => if c = '>' then some cs else goTag cs

/-- Attempt to match `[^>]+>` at the start of `l` (the characters following a
`<`).  Returns the suffix after the match, or `none` when the match fails:
either the very next character is already `>` (so `[^>]+` matches nothing) or
no `>` follows at all. -/
def findTag : List Char → Option (List Char)
  | [] => none
  | c :: cs => if c = '>' then none else goTag cs

/-- Fuel-indexed model of the JavaScript global replacement
str.replace(/<[^>]+>/g, ''), as at src/index.js line 194: scan left to
right; at each `<` attempt to match `<[^>]+>`; on success drop the match and
continue after it, on failure emit the character and move on.  Every step
consumes at least one input character, so fuel `l.length` always suffices
(`stripFuel_fuel_irrel`). -/
def stripFuel : Nat → List Char → List Char
  | 0, l => l
  | _ + 1, [] => []
  | fuel + 1, c :: cs =>
    if c = '<' then
      match findTag cs with
      | some rest => stripFuel fuel rest
      | none => c :: stripFuel fuel cs
    else c :: stripFuel fuel cs

/-- JavaScript str.replace(/<[^>]+>/g, '') on `l`. -/
def stripTags (l : List Char) : List Char := stripFuel l.length l

/-- Characters treated as whitespace by JavaScript String.prototype.trim
(restricted to the ASCII whitespace relevant to the sources). -/
def isWs (c : Char) : Bool := c == ' ' || c == '\t' || c == '\n' || c == '\r'

/-- JavaScript str.trim(): remove leading and trailing whitespace. -/
def trimChars (l : List Char) : List Char :=
  ((l.dropWhile isWs).reverse.dropWhile isWs).reverse

theorem goTag_none_of_not_mem {l : List Char} (h : '>' ∉ l) : goTag l = none := by
  induction l with
  | nil => rfl
  | cons c cs ih =>
    have hc : ¬ c = '>' := fun hc => h (hc ▸ List.mem_cons_self c cs)
    simp only [goTag, if_neg hc]
    exact ih (fun m => h (List.mem_cons_of_mem c m))

theorem not_mem_of_goTag_none {l : List Char} (h : goTag l = none) : '>' ∉ l := by
  induction l with
  | nil => simp
  | cons c cs ih =>
    by_cases hc : c = '>'
    · simp only [goTag, if_pos hc] at h
      exact Option.noConfusion h
    · simp only [goTag, if_neg hc] at h
      intro hm
      rcases List.mem_cons.mp hm with h1 | h2
      · exact hc h1.symm
      · exact ih h h2

theorem mem_of_goTag_some {l r : List Char} (h : goTag l = some r) :
    ∀ a ∈ r, a ∈ l := by
  induction l with
  | nil => exact absurd h (by simp [goTag])
  | cons c cs ih =>
    by_cases hc : c = '>'
    · simp only [goTag, if_pos hc, Option.some.injEq] at h
      subst h
      exact fun a ha => List.mem_cons_of_mem c ha
    · simp only [goTag, if_neg hc] at h
      exact fun a ha => List.mem_cons_of_mem c (ih h a ha)

theorem length_of_goTag_some {l r : List Char} (h : goTag l = some r) :
    r.length < l.length := by
  induction l with
  | nil => exact absurd h (by simp [goTag])
  | cons c cs ih =>
    by_cases hc : c = '>'
    · simp only [goTag, if_pos hc, Option.some.injEq] at h
      subst h
      simp
    · simp only [goTag, if_neg hc] at h
      exact Nat.lt_trans (ih h) (by simp)

theorem findTag_none_of_not_mem {l : List Char} (h : '>' ∉ l) : findTag l = none := by
  cases l with
  | nil => rfl
  | cons c cs =>
    by_cases hc : c = '>'
    · simp only [findTag, if_pos hc]
    · simp only [findTag, if_neg hc]
      exact goTag_none_of_not_mem (fun m => h (List.mem_cons_of_mem c m))

theorem mem_of_findTag_some {l r : List Char} (h : findTag l = some r) :
    ∀ a ∈ r, a ∈ l := by
  cases l with
  | nil => exact absurd h (by simp [findTag])
  | cons c cs =>
    by_cases hc : c = '>'
    · simp only [findTag, if_pos hc] at h
      exact Option.noConfusion h
    · simp only [findTag, if_neg hc] at h
      exact fun a ha => List.mem_cons_of_mem c (mem_of_goTag_some h a ha)

theorem length_of_findTag_some {l r : List Char} (h : findTag l = some r) :
    r.length < l.length := by
  cases l with
  | nil => exact absurd h (by simp [findTag])
  | cons c cs =>
    by_cases hc : c = '>'
    · simp only [findTag, if_pos hc] at h
      exact Option.noConfusion h
    · simp only [findTag, if_neg hc] at h
      exact Nat.lt_trans (length_of_goTag_some h) (by simp)

theorem mem_of_stripFuel {fuel : Nat} {l : List Char} :
    ∀ a ∈ stripFuel fuel l, a ∈ l := by
  induction fuel generalizing l with
  | zero => exact fun a ha => ha
  | succ fuel ih =>
    cases l with
    | nil => intro a ha; simp [stripFuel] at ha
    | cons c cs =>
      by_cases hc : c = '<'
      · cases hft : findTag cs with
        | some rest =>
          intro a ha
          simp only [stripFuel, if_pos hc, hft] at ha
          exact List.mem_cons_of_mem c (mem_of_findTag_some hft a (ih a ha))
        | none =>
          intro a ha
          simp only [stripFuel, if_pos hc, hft] at ha
          rcases List.mem_cons.mp ha with h1 | h2
          · exact h1 ▸ List.mem_cons_self c cs
          · exact List.mem_cons_of_mem c (ih a h2)
      · intro a ha
        simp only [stripFuel, if_neg hc] at ha
        rcases List.mem_cons.mp ha with h1 | h2
        · exact h1 ▸ List.mem_cons_self c cs
        · exact List.mem_cons_of_mem c (ih a h2)

theorem stripFuel_of_not_mem {fuel : Nat} {l : List Char} (h : '>' ∉ l) :
    stripFuel fuel l = l := by
  induction fuel generalizing l with
  | zero => rfl
  | succ fuel ih =>
    cases l with
    | nil => rfl
    | cons c cs =>
      have h2 : '>' ∉ cs := fun m => h (List.mem_cons_of_mem c m)
      by_cases hc : c = '<'
      · simp only [stripFuel, if_pos hc, findTag_none_of_not_mem h2]
        rw [ih h2]
      · simp only [stripFuel, if_neg hc]
        rw [ih h2]

theorem stripFuel_length_le {fuel : Nat} {l : List Char} :
    (stripFuel fuel l).length ≤ l.length := by
  induction fuel generalizing l with
  | zero => exact Nat.le_refl _
  | succ fuel ih =>
    cases l with
    | nil => simp [stripFuel]
    | cons c cs =>
      by_cases hc : c = '<'
      · cases hft : findTag cs with
        | some rest =>
          simp only [stripFuel, if_pos hc, hft]
          exact Nat.le_trans ih
            (Nat.le_trans (Nat.le_of_lt (length_of_findTag_some hft)) (by simp))
        | none =>
          simp only [stripFuel, if_pos hc, hft, List.length_cons]
          exact Nat.succ_le_succ ih
      · simp only [stripFuel, if_neg hc, List.length_cons]
        exact Nat.succ_le_succ ih

/-- A list on which another pass of the tag-stripping scan finds nothing to
remove: every `<` fails to start a `<[^>]+>` match. -/
def Clean : List Char → Prop
  | [] => True
  | c :: cs => (c = '<' → findTag cs = none) ∧ Clean cs

theorem findTag_stripFuel_none {fuel : Nat} {l : List Char} (h : findTag l = none) :
    findTag (stripFuel fuel l) = none := by
  cases l with
  | nil => cases fuel <;> simp [stripFuel, findTag]
  | cons c cs =>
    by_cases hc : c = '>'
    · cases fuel with
      | zero => exact h
      | succ fuel =>
        have hlt : ¬ c = '<' := by rw [hc]; decide
        simp only [stripFuel, if_neg hlt]
        simp only [findTag, if_pos hc]
    · have hgo : goTag cs = none := by
        simpa only [findTag, if_neg hc] using h
      have hmem : '>' ∉ (c :: cs) := by
        intro hm
        rcases List.mem_cons.mp hm with h1 | h2
        · exact hc h1.symm
        · exact not_mem_of_goTag_none hgo h2
      rw [stripFuel_of_not_mem hmem]
      exact h

theorem clean_stripFuel {fuel : Nat} {l : List Char} (h : l.length ≤ fuel) :
    Clean (stripFuel fuel l) := by
  induction fuel generalizing l with
  | zero =>
    have hl : l = [] := List.length_eq_zero.mp (Nat.le_zero.mp h)
    subst hl
    exact trivial
  | succ fuel ih =>
    cases l with
    | nil => exact trivial
    | cons c cs =>
      have hcs : cs.length ≤ fuel := by
        have := List.length_cons c cs ▸ h
        omega
      by_cases hc : c = '<'
      · cases hft : findTag cs with
        | some rest =>
          simp only [stripFuel, if_pos hc, hft]
          exact ih (Nat.le_trans (Nat.le_of_lt (length_of_findTag_some hft)) hcs)
        | none =>
          simp only [stripFuel, if_pos hc, hft]
          exact ⟨fun _ => findTag_stripFuel_none hft, ih hcs⟩
      · simp only [stripFuel, if_neg hc]
        exact ⟨fun h1 => absurd h1 hc, ih hcs⟩

theorem stripFuel_of_clean {fuel : Nat} {l : List Char} (h : Clean l) :
    stripFuel fuel l = l := by
  induction fuel generalizing l with
  | zero => rfl
  | succ fuel ih =>
    cases l with
    | nil => rfl
    | cons c cs =>
      obtain ⟨h1, h2⟩ := h
      by_cases hc : c = '<'
      · simp only [stripFuel, if_pos hc, h1 hc]
        rw [ih h2]
      · simp only [stripFuel, if_neg hc]
        rw [ih h2]

theorem stripFuel_eq_of_le {f1 : Nat} {f2 : Nat} {l : List Char}
    (h1 : l.length ≤ f1) (h2 : l.length ≤ f2) : stripFuel f1 l = stripFuel f2 l := by
  induction f1 generalizing l f2 with
  | zero =>
    have hl : l = [] := List.length_eq_zero.mp (Nat.le_zero.mp h1)
    subst hl
    cases f2 <;> rfl
  | succ f1 ih =>
    cases l with
    | nil => cases f2 <;> rfl
    | cons c cs =>
      cases f2 with
      | zero => exact absurd h2 (by simp)
      | succ f2 =>
        have hcs1 : cs.length ≤ f1 := by
          have := List.length_cons c cs ▸ h1
          omega
        have hcs2 : cs.length ≤ f2 := by
          have := List.length_cons c cs ▸ h2
          omega
        by_cases hc : c = '<'
        · cases hft : findTag cs with
          | some rest =>
            have hr := Nat.le_of_lt (length_of_findTag_some hft)
            simp only [stripFuel, if_pos hc, hft]
            exact ih (Nat.le_trans hr hcs1) (Nat.le_trans hr hcs2)
          | none =>
            simp only [stripFuel, if_pos hc, hft]
            rw [ih hcs1 hcs2]
        · simp only [stripFuel, if_neg hc]
          rw [ih hcs1 hcs2]

theorem stripFuel_fuel_irrel {fuel : Nat} {l : List Char} (h : l.length ≤ fuel) :
    stripFuel fuel l = stripTags l :=
  stripFuel_eq_of_le h (Nat.le_refl _)

/-- C8: the markup-stripping function of src/index.js line 194 is idempotent:
stripping an already-stripped text changes nothing, because every `<` that
survives one pass either is immediately followed by `>` or has no `>` after
it at all, so no `<[^>]+>` match can form. -/
theorem strip_idempotent (l : List Char) : stripTags (stripTags l) = stripTags l :=
  stripFuel_of_clean (clean_stripFuel (Nat.le_refl _))

/-- One entry of book.sections as produced by the epub-parse library; only
the fields the handler reads are modelled.  A `none` field models a
JavaScript undefined field. -/
structure Section where
  id : Option String
  title : Option String
  content : Option (List Char)
deriving DecidableEq

/-- JavaScript `x || d` for a possibly undefined string `x` and a default
string `d`: undefined and the empty string are falsy, every other string is
truthy. -/
def jsOr (x : Option String) (d : String) : String :=
  match x with
  | none => d
  | some s => if s = "" then d else s

/-- The filter predicate of src/index.js line 189:
section.content && section.content.trim() !== ''.  An undefined or empty
content is falsy; otherwise the trimmed raw markup must be non-empty (an
empty content trims to the empty string, so the truthiness test is absorbed
by the trim test). -/
def keep (s : Section) : Bool :=
  match s.content with
  | none => false
  | some c => !(trimChars c).isEmpty

/-- One element of the chapters array in the 200 response
(src/index.js lines 190-197). -/
structure Chapter where
  chapterIndex : Nat
  title : String
  contentPreview : List Char
  rawContentLength : Nat
deriving DecidableEq

/-- The arrow function of src/index.js lines 190-197, applied by
Array.prototype.map to a retained section and its position `index` in the
retained (already filtered) array.  After the filter, content is a non-blank
string, so the `getD []` totalisation is never exercised on a retained
section with undefined content. -/
def mkChapter (index : Nat) (s : Section) : Chapter :=
  { chapterIndex := index + 1
    title := jsOr s.title ( "第 " ++ toString (index + 1) ++ " 章（无标题）")
    contentPreview :=
      (stripTags (s.content.getD [])).take 300 ++
        (if 300 < (s.content.getD []).length then String.toList "..." else [])
    rawContentLength := (s.content.getD []).length }

/-- src/index.js lines 188-197: book.sections.filter(...).map(...). -/
def chapters (sections : List Section) : List Chapter :=
  List.mapIdx mkChapter (sections.filter keep)

/-- The book.metadata fields read at src/index.js lines 205-209. -/
structure Metadata where
  title : Option String
  creator : Option String
  publisher : Option String
  date : Option String
  language : Option String
deriving DecidableEq

/-- The bookMeta object of the 200 response (src/index.js lines 204-210). -/
structure BookMeta where
  title : String
  author : String
  publisher : String
  publishDate : String
  language : String
deriving DecidableEq

/-- src/index.js lines 204-210: each metadata field defaulted via `||`. -/
def bookMeta (m : Metadata) : BookMeta :=
  { title := jsOr m.title "未知标题"
    author := jsOr m.creator "未知作者"
    publisher := jsOr m.publisher "未知出版社"
    publishDate := jsOr m.date "未知日期"
    language := jsOr m.language "未知语言" }

/-- The parsed book delivered by await EpubParse(path): its metadata block
and its spine-ordered sections. -/
structure Book where
  metadata : Metadata
  sections : List Section

/-- The data object of the 200 response (src/index.js lines 203-213). -/
structure ParseData where
  bookMeta : BookMeta
  chapterCount : Nat
  chapters : List Chapter
deriving DecidableEq

def parseData (b : Book) : ParseData :=
  { bookMeta := bookMeta b.metadata
    chapterCount := (chapters b.sections).length
    chapters := chapters b.sections }

/-- The two JSON response shapes the handler can produce for an uploaded
file: the 200 success body carrying the data object, or the 500 failure body
carrying only code, error and detail strings (src/index.js lines 200-214 and
219-224). -/
inductive Response
  | success (code : Nat) (message : String) (data : ParseData)
  | failure (code : Nat) (error : String) (detail : String)
deriving DecidableEq

/-- The handler body once a file has been uploaded (src/index.js lines
177-225): `parseResult` is the outcome of await EpubParse(req.file.path);
`unlinkResult` is the outcome of fs.unlinkSync (line 182), whose failure is
caught by the inner try/catch and only logged (lines 183-185), so both
branches produce the same success response.  A parse error reaches the outer
catch (lines 216-225) and produces the structured 500 response. -/
def handleRequest (parseResult : Except String Book)
    (unlinkResult : Except String Unit) : Response :=
  match parseResult with
  | Except.error e => Response.failure 500 "解析失败" e
  | Except.ok book =>
    match unlinkResult with
    | Except.ok _ => Response.success 200 "解析成功" (parseData book)
    | Except.error _ => Response.success 200 "解析成功" (parseData book)

/-- Input-side predicate used to state C1: the section has content whose
markup-stripped text is non-empty, where whitespace-only counts as empty
(the vocabulary of the specification's filtering policy, which C4 spells
out as "empty (including whitespace-only after stripping)"). -/
def hasRealContent (s : Section) : Bool :=
  match s.content with
  | none => false
  | some c => !(trimChars (stripTags c)).isEmpty

/-- Concrete section with a title and plain short content. -/
def secIntro : Section :=
  { id := some "s1", title := some "Intro", content := some (String.toList "hello") }

/-- Concrete section whose content carries markup around two text characters. -/
def secMarkup : Section :=
  { id := some "s2", title := some "T2", content := some (String.toList "<p>ab</p>") }

/-- A single 301-character tag: raw length exceeds the preview bound 300
while the stripped text is empty. -/
def longTag : List Char := '<' :: (List.replicate 299 'a' ++ ['>'])

/-- Concrete section whose content is `longTag` alone. -/
def secLongTag : Section :=
  { id := some "s3", title := some "T3", content := some longTag }

/-- Concrete section whose content is markup only: its stripped text is
empty although the raw markup is non-blank. -/
def secTagOnly : Section :=
  { id := some "s4", title := some "T4", content := some (String.toList "<p></p>") }

/-- Concrete untitled section with plain content. -/
def secUntitled : Section :=
  { id := some "s5", title := none, content := some (String.toList "hello") }

/-- Concrete section whose raw content is whitespace only. -/
def secBlank : Section :=
  { id := some "s6", title := some "T6", content := some (String.toList "  ") }

theorem trimChars_eq_nil_iff {l : List Char} :
    trimChars l = [] ↔ ∀ a ∈ l, isWs a = true := by
  unfold trimChars
  rw [List.reverse_eq_nil_iff, List.dropWhile_eq_nil_iff]
  constructor
  · intro h a ha
    have hsplit := List.takeWhile_append_dropWhile isWs l
    rw [← hsplit] at ha
    rcases List.mem_append.mp ha with h1 | h2
    · exact List.mem_takeWhile_imp h1
    · exact h a (List.mem_reverse.mpr h2)
  · intro h a ha
    exact h a ((List.dropWhile_sublist isWs).subset (List.mem_reverse.mp ha))

theorem trimChars_ne_nil_of_subset {l : List Char} {m : List Char}
    (hsub : ∀ a ∈ m, a ∈ l) (h : trimChars m ≠ []) : trimChars l ≠ [] := by
  intro hl
  apply h
  rw [trimChars_eq_nil_iff] at hl ⊢
  exact fun a ha => hl a (hsub a ha)

theorem keep_of_hasRealContent {s : Section} (h : hasRealContent s = true) :
    keep s = true := by
  unfold hasRealContent at h
  unfold keep
  cases hc : s.content with
  | none => rw [hc] at h; exact absurd h (by simp)
  | some c =>
    rw [hc] at h
    have h1 : trimChars (stripTags c) ≠ [] := by
      simpa [List.isEmpty_iff] using h
    have h2 : trimChars c ≠ [] :=
      trimChars_ne_nil_of_subset (fun a ha => mem_of_stripFuel a ha) h1
    simpa [List.isEmpty_iff] using h2

/-- C1: for every well-formed EPUB whose spine has N entries and whose
sections all have non-empty stripped content (whitespace-only counting as
empty, per the filtering-policy vocabulary), the chapters sequence has
length exactly N and its chapterIndex values are exactly 1..N, assigned in
spine order. -/
theorem spine_entries_preserved (sections : List Section)
    (h : sections.all hasRealContent = true) :
    (chapters sections).length = sections.length ∧
    (chapters sections).map Chapter.chapterIndex = List.range' 1 sections.length := by
  have hfilter : sections.filter keep = sections :=
    List.filter_eq_self.mpr
      (fun s hs => keep_of_hasRealContent (List.all_eq_true.mp h s hs))
  unfold chapters
  rw [hfilter]
  refine ⟨by simp, ?_⟩
  apply List.ext_getElem
  · simp
  · intro i h1 h2
    simp [mkChapter]
    omega

set_option maxRecDepth 10000 in
theorem spine_entries_preserved_witness :
    [secIntro].all hasRealContent = true ∧
    ((chapters [secIntro]).length = [secIntro].length ∧
      (chapters [secIntro]).map Chapter.chapterIndex = List.range' 1 [secIntro].length) :=
  ⟨by decide, spine_entries_preserved [secIntro] (by decide)⟩

/-- C2 counterexample: for the retained chapter built from a section whose
content is "<p>ab</p>", rawContentLength is 9, the length of the original
markup, while the markup-stripped text "ab" has length 2 — so
rawContentLength is not the length of the stripped text. -/
theorem rawContentLength_counterexample :
    (chapters [secMarkup]).map Chapter.rawContentLength = [9] ∧
    (stripTags (String.toList "<p>ab</p>")).length = 2 ∧
    (chapters [secMarkup]).map Chapter.rawContentLength ≠
      [(stripTags (String.toList "<p>ab</p>")).length] := by decide

/-- C2 amended: for every retained chapter, rawContentLength equals the
length of the chapter's original (unstripped) markup, as read from
section.content.length at src/index.js line 196. -/
theorem rawContentLength_amended (sections : List Section) :
    (chapters sections).map Chapter.rawContentLength
      = (sections.filter keep).map (fun s => (s.content.getD []).length) := by
  unfold chapters
  apply List.ext_getElem
  · simp
  · intro i h1 h2
    simp [mkChapter]

set_option maxRecDepth 100000 in
/-- C3 counterexample: a section whose content is one 301-character tag has
raw length 301 exceeding the bound 300, so the handler appends the marker,
although the stripped text is empty and therefore does not exceed the bound;
the claimed equivalence between the marker and the stripped text exceeding
the bound fails. -/
theorem preview_marker_counterexample :
    (chapters [secLongTag]).map Chapter.contentPreview = [String.toList "..."] ∧
    stripTags longTag = [] ∧
    longTag.length = 301 ∧
    ¬ 300 < (stripTags longTag).length := by decide

theorem stripTags_length_le (l : List Char) : (stripTags l).length ≤ l.length :=
  stripFuel_length_le

/-- C3 amended: every retained chapter's contentPreview has length at most
the bound 300 plus the marker length 3, and the preview is the first 300
characters of the stripped text followed by the marker exactly when the RAW
content length strictly exceeds 300 (the condition the code actually tests,
src/index.js line 195); otherwise it is the full stripped text with no
marker. -/
theorem preview_amended (sections : List Section) :
    (∀ ch ∈ chapters sections, ch.contentPreview.length ≤ 300 + 3) ∧
    (chapters sections).map Chapter.contentPreview
      = (sections.filter keep).map (fun s =>
          if 300 < (s.content.getD []).length
          then (stripTags (s.content.getD [])).take 300 ++ String.toList "..."
          else stripTags (s.content.getD [])) := by
  constructor
  · intro ch hch
    unfold chapters at hch
    rw [List.mem_mapIdx] at hch
    obtain ⟨i, hi, rfl⟩ := hch
    have h3 : (String.toList "...").length = 3 := by decide
    simp only [mkChapter, List.length_append, List.length_take]
    split
    · rw [h3]
      omega
    · simp only [List.length_nil]
      omega
  · unfold chapters
    apply List.ext_getElem
    · simp
    · intro i h1 h2
      simp only [List.getElem_map, List.getElem_mapIdx, mkChapter]
      split
      · rfl
      · rw [List.append_nil, List.take_of_length_le]
        exact Nat.le_trans (stripTags_length_le _) (by omega)

theorem preview_amended_witness :
    ((chapters [secLongTag]).get ⟨0, by decide⟩).contentPreview.length ≤ 300 + 3 :=
  (preview_amended [secLongTag]).1 _ (List.get_mem _ _ _)

/-- C4 counterexample: the section with content "<p></p>" has empty stripped
content, yet the handler retains it (the filter at src/index.js line 189
tests the trimmed RAW markup, not the stripped text): the output has one
chapter and the entry consumes chapterIndex 1. -/
theorem empty_stripped_retained :
    stripTags (String.toList "<p></p>") = [] ∧
    (chapters [secTagOnly]).length = 1 ∧
    (chapters [secTagOnly]).map Chapter.chapterIndex = [1] := by decide

/-- C4 amended: a spine entry whose raw content is absent or whitespace-only
is dropped entirely from the output sequence and does not consume a
chapterIndex slot (whereas an entry whose stripped content is empty but
whose raw markup is non-blank is retained, see the counterexample). -/
theorem blank_raw_dropped (pre : List Section) (post : List Section) (s : Section)
    (h : s.content = none ∨ ∃ c, s.content = some c ∧ trimChars c = []) :
    chapters (pre ++ s :: post) = chapters (pre ++ post) := by
  have hk : ¬ keep s = true := by
    rcases h with h | ⟨c, hc, ht⟩
    · simp [keep, h]
    · simp [keep, hc, ht]
  unfold chapters
  rw [List.filter_append, List.filter_append, List.filter_cons_of_neg hk]

theorem blank_raw_dropped_witness :
    chapters ([secIntro] ++ secBlank :: []) = chapters ([secIntro] ++ []) :=
  blank_raw_dropped [secIntro] [] secBlank
    (Or.inr ⟨String.toList "  ", rfl, rfl⟩)

theorem jsOr_ne_empty {x : Option String} {d : String} (h : d ≠ "") :
    jsOr x d ≠ "" := by
  cases x with
  | none => exact h
  | some s =>
    by_cases hs : s = ""
    · simp only [jsOr, if_pos hs]
      exact h
    · simp only [jsOr, if_neg hs]
      exact hs

/-- C5: for every EPUB in which a given metadata field (title, creator,
publisher, date, or language) is absent, the corresponding field of the
response equals the documented non-empty default string for that field, and
no metadata field of a successful result is ever the empty string. -/
theorem metadata_defaults (m : Metadata) :
    (bookMeta { m with title := none }).title = "未知标题" ∧
    (bookMeta { m with creator := none }).author = "未知作者" ∧
    (bookMeta { m with publisher := none }).publisher = "未知出版社" ∧
    (bookMeta { m with date := none }).publishDate = "未知日期" ∧
    (bookMeta { m with language := none }).language = "未知语言" ∧
    (bookMeta m).title ≠ "" ∧
    (bookMeta m).author ≠ "" ∧
    (bookMeta m).publisher ≠ "" ∧
    (bookMeta m).publishDate ≠ "" ∧
    (bookMeta m).language ≠ "" :=
  ⟨rfl, rfl, rfl, rfl, rfl,
    jsOr_ne_empty (by decide), jsOr_ne_empty (by decide), jsOr_ne_empty (by decide),
    jsOr_ne_empty (by decide), jsOr_ne_empty (by decide)⟩

/-- C6: whenever parsing fails, the handler returns only the structured 500
failure body; no metadata and no chapters appear in the returned value (the
failure constructor carries no ParseData at all). -/
theorem parse_error_no_partial (e : String) (u : Except String Unit) :
    handleRequest (Except.error e) u = Response.failure 500 "解析失败" e := rfl

/-- C7 counterexample: the untitled retained chapter at position 1 is given
the title "第 1 章（无标题）", not the placeholder "Chapter 1" stated by the
claim. -/
theorem placeholder_counterexample :
    (chapters [secUntitled]).map Chapter.title = ["第 1 章（无标题）"] ∧
    "第 1 章（无标题）" ≠ "Chapter 1" := by decide

/-- C7 amended: a retained chapter whose section carries no title (or an
empty one, which JavaScript `||` also replaces) is titled with the
placeholder "第 i 章（无标题）" where i is its 1-based position in the
retained (post-filtering) sequence; a chapter with a non-empty title keeps
it. -/
theorem chapter_title_amended (sections : List Section) (i : Nat)
    (hi : i < (sections.filter keep).length)
    (hc : i < (chapters sections).length) :
    ((sections.filter keep)[i].title = none ∨
        (sections.filter keep)[i].title = some "" →
      (chapters sections)[i].title
        = "第 " ++ toString (i + 1) ++ " 章（无标题）") ∧
    (∀ t, (sections.filter keep)[i].title = some t → t ≠ "" →
      (chapters sections)[i].title = t) := by
  have hg : (chapters sections)[i] = mkChapter i (sections.filter keep)[i] := by
    unfold chapters at hc ⊢
    simp [List.getElem_mapIdx]
  constructor
  · intro h
    rw [hg]
    rcases h with h | h <;> simp [mkChapter, jsOr, h]
  · intro t ht hne
    rw [hg]
    simp [mkChapter, jsOr, ht, hne]

set_option maxRecDepth 10000 in
theorem chapter_title_amended_witness :
    ((chapters [secUntitled]).get ⟨0, by decide⟩).title = "第 1 章（无标题）" :=
  (chapter_title_amended [secUntitled] 0 (by decide) (by decide)).1 (Or.inl rfl)

/-- C9: in every successful parse response, the chapterCount field equals
the length of the chapters array it accompanies. -/
theorem chapter_count_eq_length (b : Book) :
    (parseData b).chapterCount = (parseData b).chapters.length := rfl

/-- C10: a failure of the temporary-file deletion after a successful parse
does not change the operation's outcome: the inner catch swallows the unlink
error and the same 200 success body is produced either way. -/
theorem unlink_failure_harmless (b : Book) (u : Except String Unit) :
    handleRequest (Except.ok b) u = Response.success 200 "解析成功" (parseData b) := by
  cases u <;> rfl

end EpubParse
